import Mathlib

/-!
# Verification of the propositional-logic chatbot (`logic_chatbot.py`, `commands.py`)

This file embeds the inference engine of the chatbot in Lean 4 and settles the
frozen claims about it.

The program represents formulas as sympy Boolean expressions.  sympy itself is
an external library (its sources are not part of the repository), so the formula
data model follows the specification (§3): a recursive value with variants
`Var`, `Not`, `And` (ordered sequence of arguments), `Or` (ordered sequence),
`Implies`, `Iff` and `Const`, compared by structural equality with argument
order preserved.  The engine operations (`tell`, `ask`, `modus_ponens`,
`resolution`, `format_formula`, `convert_to_cnf`) are translated from
`src/logic_chatbot.py`; the steps-1-2-only `ask` is translated from
`src/commands.py`.

The Python code passes formulas between the engine functions by rendering them
with `str` and re-parsing (`modus_ponens(formula_str, str(fact))` etc.); the
embedding passes the formula values directly, which is the round trip those
calls perform.  The Python `tell`/`modus_ponens` pair is mutually recursive
through the knowledge base; the embedding makes the recursion explicit with a
fuel parameter (`tell fuel ...`): fuel is only consumed by the nested
`modus_ponens → tell` calls of the forward-chaining loop, and a call that runs
out of fuel returns its knowledge base unchanged.
-/

/-- Modelled from the spec (§3): the formula data type of the external sympy
layer.  `and`/`or` carry their arguments as an ordered sequence; structural
equality compares those sequences in order. -/
inductive Formula where
  | var (name : String)
  | const (b : Bool)
  | not (f : Formula)
  | and (args : List Formula)
  | or (args : List Formula)
  | implies (a c : Formula)
  | iff (l r : Formula)
deriving Repr

namespace Formula

mutual
/-- Boolean-valued structural equality on formulas. -/
def beq : Formula → Formula → Bool
  | .var n, .var m => n == m
  | .const a, .const b => a == b
  | .not f, .not g => beq f g
  | .and a, .and b => beqList a b
  | .or a, .or b => beqList a b
  | .implies a c, .implies a' c' => beq a a' && beq c c'
  | .iff a b, .iff a' b' => beq a a' && beq b b'
  | _, _ => false

/-- Structural equality on argument lists. -/
def beqList : List Formula → List Formula → Bool
  | [], [] => true
  | f :: fs, g :: gs => beq f g && beqList fs gs
  | _, _ => false
end

mutual
/-- Truth value of a formula under an assignment of the propositional symbols
(the semantics the spec's satisfiability oracle decides, §4.2). -/
def eval (v : String → Bool) : Formula → Bool
  | .var n => v n
  | .const b => b
  | .not f => !(eval v f)
  | .and args => evalAll v args
  | .or args => evalAny v args
  | .implies a c => !(eval v a) || eval v c
  | .iff a b => eval v a == eval v b

/-- Conjunction of the truth values of a list of formulas. -/
def evalAll (v : String → Bool) : List Formula → Bool
  | [] => true
  | f :: fs => eval v f && evalAll v fs

/-- Disjunction of the truth values of a list of formulas. -/
def evalAny (v : String → Bool) : List Formula → Bool
  | [] => false
  | f :: fs => eval v f || evalAny v fs
end

mutual
/-- Propositional symbols occurring in a formula. -/
def vars : Formula → List String
  | .var n => [n]
  | .const _ => []
  | .not f => vars f
  | .and args => varsList args
  | .or args => varsList args
  | .implies a c => vars a ++ vars c
  | .iff a b => vars a ++ vars b

/-- Propositional symbols occurring in a list of formulas. -/
def varsList : List Formula → List String
  | [] => []
  | f :: fs => vars f ++ varsList fs
end

end Formula

/-- Induction over `Formula` that provides the inductive hypothesis for every
member of an `and`/`or` argument list. -/
theorem Formula.rec_mem {P : Formula → Prop}
    (hvar : ∀ n, P (.var n)) (hconst : ∀ b, P (.const b))
    (hnot : ∀ f, P f → P (.not f))
    (hand : ∀ args, (∀ a ∈ args, P a) → P (.and args))
    (hor : ∀ args, (∀ a ∈ args, P a) → P (.or args))
    (himp : ∀ a c, P a → P c → P (.implies a c))
    (hiff : ∀ a b, P a → P b → P (.iff a b)) : ∀ f, P f
  | .var n => hvar n
  | .const b => hconst b
  | .not f => hnot f (Formula.rec_mem hvar hconst hnot hand hor himp hiff f)
  | .and args => hand args (fun a ha =>
      have : sizeOf a < 1 + sizeOf args := by
        have := List.sizeOf_lt_of_mem ha; omega
      Formula.rec_mem hvar hconst hnot hand hor himp hiff a)
  | .or args => hor args (fun a ha =>
      have : sizeOf a < 1 + sizeOf args := by
        have := List.sizeOf_lt_of_mem ha; omega
      Formula.rec_mem hvar hconst hnot hand hor himp hiff a)
  | .implies a c => himp a c
      (Formula.rec_mem hvar hconst hnot hand hor himp hiff a)
      (Formula.rec_mem hvar hconst hnot hand hor himp hiff c)
  | .iff a b => hiff a b
      (Formula.rec_mem hvar hconst hnot hand hor himp hiff a)
      (Formula.rec_mem hvar hconst hnot hand hor himp hiff b)

namespace Formula

theorem beq_iff_eq_fm (a : Formula) : ∀ b, beq a b = true ↔ a = b := by
  induction a using Formula.rec_mem with
  | hvar n => intro b; cases b <;> simp [beq]
  | hconst x => intro b; cases b <;> simp [beq]
  | hnot f ih => intro b; cases b <;> simp [beq, ih]
  | hand args ih =>
      intro b
      cases b <;> simp only [beq, Bool.false_eq_true, false_iff, reduceCtorEq,
        not_false_eq_true, and.injEq]
      case and bs =>
        induction args generalizing bs with
        | nil => cases bs <;> simp [beqList]
        | cons f fs ihl =>
            cases bs with
            | nil => simp [beqList]
            | cons g gs =>
                simp only [beqList, Bool.and_eq_true, List.cons.injEq]
                rw [ih f (by simp) g, ihl (fun a ha => ih a (by simp [ha])) gs]
  | hor args ih =>
      intro b
      cases b <;> simp only [beq, Bool.false_eq_true, false_iff, reduceCtorEq,
        not_false_eq_true, or.injEq]
      case or bs =>
        induction args generalizing bs with
        | nil => cases bs <;> simp [beqList]
        | cons f fs ihl =>
            cases bs with
            | nil => simp [beqList]
            | cons g gs =>
                simp only [beqList, Bool.and_eq_true, List.cons.injEq]
                rw [ih f (by simp) g, ihl (fun a ha => ih a (by simp [ha])) gs]
  | himp a c iha ihc => intro b; cases b <;> simp [beq, iha, ihc]
  | hiff a c iha ihc => intro b; cases b <;> simp [beq, iha, ihc]

instance : DecidableEq Formula := fun a b =>
  decidable_of_iff (beq a b = true) (beq_iff_eq_fm a b)

theorem evalAll_eq_all (v : String → Bool) (l : List Formula) :
    evalAll v l = l.all (eval v) := by
  induction l with
  | nil => rfl
  | cons f fs ih => simp [evalAll, ih]

theorem evalAny_eq_any (v : String → Bool) (l : List Formula) :
    evalAny v l = l.any (eval v) := by
  induction l with
  | nil => rfl
  | cons f fs ih => simp [evalAny, ih]

theorem varsList_eq (l : List Formula) :
    varsList l = l.flatMap vars := by
  induction l with
  | nil => rfl
  | cons f fs ih => simp [varsList, ih, List.flatMap_cons]

theorem all_congr_mem {l : List Formula} {p q : Formula → Bool}
    (h : ∀ a ∈ l, p a = q a) : l.all p = l.all q := by
  induction l with
  | nil => rfl
  | cons f fs ih =>
      simp only [List.all_cons, h f (by simp)]
      rw [ih (fun a ha => h a (by simp [ha]))]

theorem any_congr_mem {l : List Formula} {p q : Formula → Bool}
    (h : ∀ a ∈ l, p a = q a) : l.any p = l.any q := by
  induction l with
  | nil => rfl
  | cons f fs ih =>
      simp only [List.any_cons, h f (by simp)]
      rw [ih (fun a ha => h a (by simp [ha]))]

/-- `eval` only depends on the values of the symbols occurring in the formula. -/
theorem eval_congr (f : Formula) :
    ∀ v w : String → Bool, (∀ n ∈ f.vars, v n = w n) → eval v f = eval w f := by
  induction f using Formula.rec_mem with
  | hvar n => intro v w h; exact h n (by simp [vars])
  | hconst b => intro v w _; rfl
  | hnot f ih => intro v w h; simp only [eval]; rw [ih v w h]
  | hand args ih =>
      intro v w h
      simp only [eval, evalAll_eq_all]
      apply all_congr_mem
      intro a ha
      exact ih a ha v w (fun n hn => h n (by
        simp only [vars, varsList_eq, List.mem_flatMap]
        exact ⟨a, ha, hn⟩))
  | hor args ih =>
      intro v w h
      simp only [eval, evalAny_eq_any]
      apply any_congr_mem
      intro a ha
      exact ih a ha v w (fun n hn => h n (by
        simp only [vars, varsList_eq, List.mem_flatMap]
        exact ⟨a, ha, hn⟩))
  | himp a c iha ihc =>
      intro v w h
      simp only [eval]
      rw [iha v w fun n hn => h n (by simp [vars, hn]),
          ihc v w fun n hn => h n (by simp [vars, hn])]
  | hiff a b iha ihb =>
      intro v w h
      simp only [eval]
      rw [iha v w fun n hn => h n (by simp [vars, hn]),
          ihb v w fun n hn => h n (by simp [vars, hn])]

end Formula

/-- Modelled from the spec (§4.2): the satisfiability oracle decides whether
some truth assignment makes the formula true (sympy's `satisfiable`, an
external library function). -/
def Satisfiable (f : Formula) : Prop := ∃ v : String → Bool, Formula.eval v f = true

/-- All assignments of the listed symbols (every other symbol mapped to
`false`): the finite search space for deciding `Satisfiable`. -/
def boolFuns : List String → List (String → Bool)
  | [] => [fun _ => false]
  | n :: ns => (boolFuns ns).flatMap fun v =>
      [fun m => if m = n then true else v m, fun m => if m = n then false else v m]

theorem boolFuns_complete (ns : List String) (v : String → Bool) :
    ∃ w ∈ boolFuns ns, ∀ n ∈ ns, w n = v n := by
  induction ns with
  | nil => exact ⟨fun _ => false, by simp [boolFuns], by simp⟩
  | cons n ns ih =>
      obtain ⟨w, hw, hagree⟩ := ih
      refine ⟨fun m => if m = n then v n else w m, ?_, ?_⟩
      · simp only [boolFuns, List.mem_flatMap]
        refine ⟨w, hw, ?_⟩
        cases hv : v n with
        | true => exact List.mem_cons_self _ _
        | false => exact List.mem_cons_of_mem _ (List.mem_cons_self _ _)
      · intro m hm
        rcases List.mem_cons.mp hm with h | h
        · simp [h]
        · by_cases hmn : m = n
          · simp [hmn]
          · simp [hmn, hagree m h]

instance Satisfiable.dec : DecidablePred Satisfiable := fun f =>
  decidable_of_iff ((boolFuns f.vars.dedup).any (fun v => Formula.eval v f) = true)
    (by
      constructor
      · intro h
        obtain ⟨v, _, hv⟩ := List.any_eq_true.mp h
        exact ⟨v, hv⟩
      · intro ⟨v, hv⟩
        obtain ⟨w, hw, hagree⟩ := boolFuns_complete f.vars.dedup v
        refine List.any_eq_true.mpr ⟨w, hw, ?_⟩
        rw [Formula.eval_congr f w v (fun n hn => hagree n (List.mem_dedup.mpr hn))]
        exact hv)

namespace Formula

/-- Modelled from the spec / sympy: sympy's `Not` constructor auto-simplifies
double negation and boolean constants (`Not(Not(x)) = x`, `Not(True) = False`);
the engine's comparisons `lit1 == Not(lit2)` go through it. -/
def mkNot : Formula → Formula
  | .not f => f
  | .const b => .const (!b)
  | f => .not f

theorem eval_mkNot (v : String → Bool) (f : Formula) :
    eval v (mkNot f) = !(eval v f) := by
  cases f <;> simp [mkNot, eval]

mutual
/-- Modelled from the spec (§6): the rendering the external layer's `str`
applies to a formula when the engine interpolates it into a result message
(sympy's `StrPrinter`): symbols by name, `~` for negation (parenthesizing
conjunctions/disjunctions), infix ` & `/` | `, and function-call notation for
`Implies`/`Equivalent`. -/
def str : Formula → String
  | .var n => n
  | .const b => if b then "True" else "False"
  | .not f =>
      match f with
      | .and _ => "~(" ++ str f ++ ")"
      | .or _ => "~(" ++ str f ++ ")"
      | _ => "~" ++ str f
  | .and args => String.intercalate " & " (strAndArgs args)
  | .or args => String.intercalate " | " (strOrArgs args)
  | .implies a c => "Implies(" ++ str a ++ ", " ++ str c ++ ")"
  | .iff a b => "Equivalent(" ++ str a ++ ", " ++ str b ++ ")"

/-- Renders `And` arguments, parenthesizing the lower-precedence `Or`. -/
def strAndArgs : List Formula → List String
  | [] => []
  | f :: fs =>
      (match f with
       | .or _ => "(" ++ str f ++ ")"
       | _ => str f) :: strAndArgs fs

/-- Renders `Or` arguments (nothing binds more loosely, so no parentheses). -/
def strOrArgs : List Formula → List String
  | [] => []
  | f :: fs => str f :: strOrArgs fs
end

end Formula

/-- Does `sub` get parenthesized inside an `And`/`Or` rendering?  Translates
`subexpr.func in (And, Or, Implies, Equivalent) and len(subexpr.args) > 1`
(src/logic_chatbot.py line 80). -/
def wrapInJoin : Formula → Bool
  | .and l => l.length > 1
  | .or l => l.length > 1
  | .implies _ _ => true
  | .iff _ _ => true
  | _ => false

mutual
/-- `format_formula` (src/logic_chatbot.py lines 37-87). -/
def format_formula : Formula → String
  | .var n => n
  | .not f => "~" ++ format_formula f
  | .implies a c =>
      let left_str := format_formula a
      let right_str := format_formula c
      let right_str' := match c with
        | .var _ => right_str
        | .not _ => right_str
        | _ => "( " ++ right_str ++ " )"
      left_str ++ " => " ++ right_str'
  | .iff a b =>
      let left_str := format_formula a
      let right_str := format_formula b
      let right_str' := match b with
        | .var _ => right_str
        | .not _ => right_str
        | _ => "( " ++ right_str ++ " )"
      left_str ++ " <=> " ++ right_str'
  | .and args => String.intercalate " & " (format_parts args)
  | .or args => String.intercalate " | " (format_parts args)
  | .const b => if b then "True" else "False"

/-- The per-argument bodies of the `And`/`Or` loop of `format_formula`
(src/logic_chatbot.py lines 77-83). -/
def format_parts : List Formula → List String
  | [] => []
  | sub :: rest =>
      (if wrapInJoin sub then "( " ++ format_formula sub ++ " )"
       else format_formula sub) :: format_parts rest
end

/-- `get_literals` inside `resolution` (src/logic_chatbot.py lines 290-291). -/
def get_literals : Formula → List Formula
  | .or args => args
  | e => [e]

/-- The nested loop of `resolution` searching the first complementary pair
`(lit1, lit2)` with `lit1 == Not(lit2) or Not(lit1) == lit2`
(src/logic_chatbot.py lines 296-298). -/
def findCompl (lits1 lits2 : List Formula) : Option (Formula × Formula) :=
  lits1.findSome? fun l1 => lits2.findSome? fun l2 =>
    if l1 = Formula.mkNot l2 ∨ Formula.mkNot l1 = l2 then some (l1, l2) else none

/-- The deduplication loop of `resolution`: keep the first occurrence of each
literal, preserving order (src/logic_chatbot.py lines 302-305). -/
def dedupFirstAux : List Formula → List Formula → List Formula
  | acc, [] => acc
  | acc, x :: xs => if x ∈ acc then dedupFirstAux acc xs else dedupFirstAux (acc ++ [x]) xs

/-- Order-preserving deduplication, first occurrence wins. -/
def dedupFirst (l : List Formula) : List Formula := dedupFirstAux [] l

/-- The resolvent `resolution` builds once a complementary pair is found
(src/logic_chatbot.py lines 299-313): remove every occurrence of `lit1` from
the first literal list and of `lit2` from the second, concatenate, deduplicate
preserving order, and rebuild (`[] ↦ Const(false)`, a single literal stands
alone, otherwise `Or`). -/
def buildResolvent (lits1 lits2 : List Formula) (lit1 lit2 : Formula) : Formula :=
  let remaining := lits1.filter (fun x => decide (x ≠ lit1))
    ++ lits2.filter (fun x => decide (x ≠ lit2))
  match dedupFirst remaining with
  | [] => .const false
  | [x] => x
  | xs => .or xs

/-- `resolution` (src/logic_chatbot.py lines 282-322).  Takes the current
knowledge base and the two parsed clauses; returns the updated knowledge base
and the response string. -/
def resolution (kb : List Formula) (c1 c2 : Formula) : List Formula × String :=
  let literals1 := get_literals c1
  let literals2 := get_literals c2
  match findCompl literals1 literals2 with
  | none => (kb, "No complementary literals found; resolution not applicable.")
  | some (lit1, lit2) =>
      let resolvent := buildResolvent literals1 literals2 lit1 lit2
      if resolvent ∈ kb then
        (kb, "applied resolution but it's already in the KB: " ++ resolvent.str)
      else
        (kb ++ [resolvent], "applied resolution and learned: " ++ resolvent.str)

/-- Substring test on character lists (for the `"learned: False" in result_str`
check of `ask`, src/logic_chatbot.py line 225). -/
def hasInfixCh (pat : List Char) : List Char → Bool
  | [] => decide (pat = [])
  | c :: rest => pat.isPrefixOf (c :: rest) || hasInfixCh pat rest

/-- Python's `in` on strings. -/
def strContains (s pat : String) : Bool := hasInfixCh pat.data s.data

/-- `And(*knowledge_base) if knowledge_base else True`: the conjunction of the
knowledge base (src/logic_chatbot.py line 164). -/
def kb_conj (kb : List Formula) : Formula :=
  if kb = [] then .const true else .and kb

/-- The body of the resolution loop of `tell` (src/logic_chatbot.py lines
184-187): resolve the new formula against every clause of the snapshot, in
both directions. -/
def resLoop : Formula → List Formula → List Formula → List Formula
  | _, [], kb => kb
  | f, clause :: rest, kb =>
      let kb1 := (resolution kb f clause).1
      let kb2 := (resolution kb1 clause f).1
      resLoop f rest kb2

namespace LogicChatbot

/-- `tell` (src/logic_chatbot.py lines 149-189).  `fuel` bounds the
`tell → modus_ponens → tell` recursion of the forward-chaining loop; at fuel 0
the call returns its knowledge base unchanged.  The forward-chaining loop
(lines 177-182) iterates over the snapshot of the knowledge base taken after
appending the new formula and calls `modus_ponens(formula_str, str(fact))` on
every implication whose antecedent equals the new formula; since `modus_ponens`
re-checks exactly those two guards and then runs `tell` on the consequent
(discarding the message), the loop's effect on the knowledge base is the fold
below — `modus_ponens_fst_of_match` proves the step coincides with
`modus_ponens`. -/
def tell : Nat → List Formula → Formula → List Formula × String
  | 0, kb, _ => (kb, "")
  | fuel + 1, kb, f =>
      if ¬ Satisfiable (.and [kb_conj kb, Formula.mkNot f]) then
        (kb, "I already know that")
      else if ¬ Satisfiable (.and [kb_conj kb, f]) then
        (kb, "I do not believe that")
      else
        let kb1 := kb ++ [f]
        let kb2 := kb1.foldl (fun kbAcc fact =>
          match fact with
          | .implies a c => if f = a then (tell fuel kbAcc c).1 else kbAcc
          | _ => kbAcc) kb1
        let kb3 := resLoop f kb2 kb2
        (kb3, "I've learned something new")

/-- `modus_ponens` (src/logic_chatbot.py lines 254-279). -/
def modus_ponens (fuel : Nat) (kb : List Formula) (premise impl : Formula) :
    List Formula × String :=
  match impl with
  | .implies a c =>
      if premise = a then
        let r := tell fuel kb c
        (r.1,
          if r.2 = "I've learned something new" then
            "applied modus ponens and learned: " ++ c.str
          else if r.2 = "I already know that" then
            "applied modus ponens but I already know that: " ++ c.str
          else
            "I do not believe that: " ++ c.str)
      else
        (kb, "Error: premise " ++ premise.str
          ++ " does not match implication antecedent " ++ a.str ++ ".")
  | _ => (kb, "Error: second argument must be an implication.")

/-- Under the guards of `tell`'s forward-chaining loop, the knowledge-base
effect of the nested `modus_ponens` call is that of `tell` on the consequent. -/
theorem modus_ponens_fst_of_match (fuel : Nat) (kb : List Formula) (a c : Formula) :
    (modus_ponens fuel kb a (.implies a c)).1 = (tell fuel kb c).1 := by
  simp [modus_ponens]

/-- The modus-ponens lookahead of `ask` (src/logic_chatbot.py lines 213-219):
some implication of the knowledge base has the query as consequent and an
antecedent the knowledge base entails. -/
def mpLookahead (kb : List Formula) (q : Formula) : Bool :=
  kb.any fun fact =>
    match fact with
    | .implies a c =>
        decide (c = q) && decide (¬ Satisfiable (.and [kb_conj kb, Formula.mkNot a]))
    | _ => false

/-- The resolution lookahead of `ask` (src/logic_chatbot.py lines 221-226):
`for clause_expr in knowledge_base: resolution(negated_query_str, str(clause_expr))`.
Python iterates by index over the list that `resolution` itself appends to, so
the loop also visits resolvents added during the scan; `fuel` bounds the
number of iterations. -/
def askResLoop : Nat → Formula → List Formula → Nat → List Formula × Bool
  | 0, _, kb, _ => (kb, false)
  | fuel + 1, nq, kb, i =>
      if h : i < kb.length then
        let clause := kb.get ⟨i, h⟩
        let r := resolution kb nq clause
        if strContains r.2 "learned: False" then (r.1, true)
        else askResLoop fuel nq r.1 (i + 1)
      else (kb, false)

/-- `ask` (src/logic_chatbot.py lines 192-228).  `q` is the parsed query
`parse_formula(formula_str)`; `nq` is `parse_formula("not " + formula_str)`,
which the Python code builds by string concatenation — because `not` binds
more tightly than the binary keywords, `nq` is the parse with `~` applied to
the leftmost primary of the query text, not necessarily `Not(q)`. -/
def ask (fuel : Nat) (kb : List Formula) (q nq : Formula) : List Formula × String :=
  if ¬ Satisfiable (.and [kb_conj kb, Formula.mkNot q]) then (kb, "Yes")
  else if ¬ Satisfiable (.and [kb_conj kb, q]) then (kb, "No")
  else if mpLookahead kb q then (kb, "Yes")
  else
    let r := askResLoop fuel nq kb 0
    (r.1, if r.2 then "Yes" else "I do not know")

/-- `ask` of src/commands.py (lines 32-55): only the entailment and
contradiction checks, no lookahead, no mutation. -/
def commands_ask (kb : List Formula) (q : Formula) : String :=
  if ¬ Satisfiable (.and [kb_conj kb, Formula.mkNot q]) then "Yes"
  else if ¬ Satisfiable (.and [kb_conj kb, q]) then "No"
  else "I do not know"

/-- A knowledge-base mutating operation of the engine: `tell` or
`modus_ponens` (each with the fuel for its forward chaining). -/
inductive KbOp where
  | tellOp (fuel : Nat) (f : Formula)
  | mpOp (fuel : Nat) (premise impl : Formula)

/-- Effect of one operation on the knowledge base. -/
def applyOp (kb : List Formula) : KbOp → List Formula
  | .tellOp fuel f => (tell fuel kb f).1
  | .mpOp fuel premise impl => (modus_ponens fuel kb premise impl).1

/-- Run a sequence of operations against the knowledge base. -/
def runOps : List KbOp → List Formula → List Formula
  | [], kb => kb
  | op :: rest, kb => runOps rest (applyOp kb op)

mutual
/-- Modelled from the spec (§4.1): negation normal form, positive side.
Eliminates `Implies`/`Iff` (`A→B ↦ ¬A∨B`, `A↔B ↦ (¬A∨B)∧(A∨¬B)`) and pushes
negations inward by De Morgan's laws until they apply only to atoms. -/
def nnfP : Formula → Formula
  | .var n => .var n
  | .const b => .const b
  | .not f => nnfN f
  | .and args => .and (nnfPList args)
  | .or args => .or (nnfPList args)
  | .implies a c => .or [nnfN a, nnfP c]
  | .iff a b => .and [.or [nnfN a, nnfP b], .or [nnfP a, nnfN b]]

/-- Negation normal form of the negation of the formula. -/
def nnfN : Formula → Formula
  | .var n => .not (.var n)
  | .const b => .const (!b)
  | .not f => nnfP f
  | .and args => .or (nnfNList args)
  | .or args => .and (nnfNList args)
  | .implies a c => .and [nnfP a, nnfN c]
  | .iff a b => .and [.or [nnfP a, nnfP b], .or [nnfN a, nnfN b]]

/-- `nnfP` on every member of an argument list. -/
def nnfPList : List Formula → List Formula
  | [] => []
  | f :: fs => nnfP f :: nnfPList fs

/-- `nnfN` on every member of an argument list. -/
def nnfNList : List Formula → List Formula
  | [] => []
  | f :: fs => nnfN f :: nnfNList fs
end

/-- All unions of one clause from `cs` with one clause from `ds`: the
distribution of `Or` over `And` on clause sets. -/
def prodConcat (cs ds : List (List Formula)) : List (List Formula) :=
  cs.flatMap fun c => ds.map fun d => c ++ d

mutual
/-- Modelled from the spec (§4.1): the clause set of a formula in negation
normal form — a conjunction of disjunctions of literals, with `Or`
distributed over nested `And`. -/
def clausesOf : Formula → List (List Formula)
  | .and args => clausesAnd args
  | .or args => clausesOr args
  | f => [[f]]

/-- Union of the clause sets of the conjuncts. -/
def clausesAnd : List Formula → List (List Formula)
  | [] => []
  | f :: fs => clausesOf f ++ clausesAnd fs

/-- Distribution of a disjunction over the clause sets of its disjuncts. -/
def clausesOr : List Formula → List (List Formula)
  | [] => [[]]
  | f :: fs => prodConcat (clausesOf f) (clausesOr fs)
end

/-- Modelled from the spec (§4.1), the `simplify` pass on one clause: drop the
clause entirely when it is trivially true (it contains `Const(true)` or a
syntactically complementary pair), otherwise remove `Const(false)` literals
and duplicate literals. -/
def simpClause (c : List Formula) : Option (List Formula) :=
  if (Formula.const true) ∈ c ∨ c.any (fun l => decide ((Formula.not l) ∈ c)) then
    none
  else
    some (dedupFirst (c.filter (fun l => decide (l ≠ .const false))))

/-- The `simplify` pass on a clause set. -/
def simpCNF (cs : List (List Formula)) : List (List Formula) :=
  cs.filterMap simpClause

/-- Rebuild a clause as a formula: the empty clause is `Const(false)` and a
one-literal clause collapses to the literal. -/
def clauseToFormula : List Formula → Formula
  | [] => .const false
  | [l] => l
  | ls => .or ls

/-- Rebuild a clause set as a formula: the empty set is `Const(true)` and a
one-clause set collapses to the clause. -/
def cnfToFormula (cs : List (List Formula)) : Formula :=
  match cs.map clauseToFormula with
  | [] => .const true
  | [f] => f
  | fs => .and fs

/-- Modelled from the spec (§4.1): `to_cnf(f, simplify)` with `simplify`
enabled, as used by the `to_cnf:` command (sympy's `to_cnf`, an external
library function): eliminate `Implies`/`Iff`, push negations inward,
distribute `Or` over `And`, then apply the basic simplifications. -/
def to_cnf (f : Formula) : Formula :=
  cnfToFormula (simpCNF (clausesOf (nnfP f)))

/-- `convert_to_cnf` (src/logic_chatbot.py lines 325-342): the two-line
response of the `to_cnf:` command. -/
def convert_to_cnf (f : Formula) : String :=
  "original formula : " ++ format_formula f
    ++ "\nconverted to CNF : " ++ format_formula (to_cnf f)

/-! ## Correctness of the CNF conversion -/

/-- Truth of a clause (a disjunction of literals) under an assignment. -/
def clauseEval (v : String → Bool) (c : List Formula) : Bool :=
  c.any (Formula.eval v)

/-- Truth of a clause set (a conjunction of clauses) under an assignment. -/
def cnfEval (v : String → Bool) (cs : List (List Formula)) : Bool :=
  cs.all (clauseEval v)

theorem nnfPList_eq (l : List Formula) : nnfPList l = l.map nnfP := by
  induction l with
  | nil => rfl
  | cons f fs ih => simp [nnfPList, ih]

theorem nnfNList_eq (l : List Formula) : nnfNList l = l.map nnfN := by
  induction l with
  | nil => rfl
  | cons f fs ih => simp [nnfNList, ih]

theorem any_not_eq_not_all (l : List Formula) (p : Formula → Bool) :
    (l.any fun a => !p a) = !l.all p := by
  induction l with
  | nil => rfl
  | cons f fs ih => simp [List.any_cons, List.all_cons, ih, Bool.not_and]

theorem all_not_eq_not_any (l : List Formula) (p : Formula → Bool) :
    (l.all fun a => !p a) = !l.any p := by
  induction l with
  | nil => rfl
  | cons f fs ih => simp [List.any_cons, List.all_cons, ih, Bool.not_or]

theorem nnf_eval (f : Formula) : ∀ v : String → Bool,
    Formula.eval v (nnfP f) = Formula.eval v f
      ∧ Formula.eval v (nnfN f) = !(Formula.eval v f) := by
  induction f using Formula.rec_mem with
  | hvar n => intro v; simp [nnfP, nnfN, Formula.eval]
  | hconst b => intro v; simp [nnfP, nnfN, Formula.eval]
  | hnot f ih => intro v; simp [nnfP, nnfN, Formula.eval, (ih v).1, (ih v).2]
  | hand args ih =>
      intro v
      constructor
      · simp only [nnfP, Formula.eval, Formula.evalAll_eq_all, nnfPList_eq, List.all_map]
        exact Formula.all_congr_mem fun a ha => (ih a ha v).1
      · simp only [nnfN, Formula.eval, Formula.evalAny_eq_any, Formula.evalAll_eq_all,
          nnfNList_eq, List.any_map, Function.comp_def]
        rw [Formula.any_congr_mem fun a ha => (ih a ha v).2, any_not_eq_not_all]
  | hor args ih =>
      intro v
      constructor
      · simp only [nnfP, Formula.eval, Formula.evalAny_eq_any, nnfPList_eq, List.any_map]
        exact Formula.any_congr_mem fun a ha => (ih a ha v).1
      · simp only [nnfN, Formula.eval, Formula.evalAll_eq_all, Formula.evalAny_eq_any,
          nnfNList_eq, List.all_map, Function.comp_def]
        rw [Formula.all_congr_mem fun a ha => (ih a ha v).2, all_not_eq_not_any]
  | himp a c iha ihc =>
      intro v
      constructor
      · simp [nnfP, Formula.eval, Formula.evalAny, (iha v).2, (ihc v).1]
      · simp only [nnfN, Formula.eval, Formula.evalAll, (iha v).1, (ihc v).2]
        cases Formula.eval v a <;> cases Formula.eval v c <;> rfl
  | hiff a b iha ihb =>
      intro v
      constructor
      · simp only [nnfP, Formula.eval, Formula.evalAll, Formula.evalAny,
          (iha v).1, (iha v).2, (ihb v).1, (ihb v).2]
        cases Formula.eval v a <;> cases Formula.eval v b <;> rfl
      · simp only [nnfN, Formula.eval, Formula.evalAll, Formula.evalAny,
          (iha v).1, (iha v).2, (ihb v).1, (ihb v).2]
        cases Formula.eval v a <;> cases Formula.eval v b <;> rfl

theorem cnfEval_append (v : String → Bool) (cs ds : List (List Formula)) :
    cnfEval v (cs ++ ds) = (cnfEval v cs && cnfEval v ds) := by
  simp [cnfEval, List.all_append]

theorem cnfEval_map_append (v : String → Bool) (c : List Formula)
    (ds : List (List Formula)) :
    cnfEval v (ds.map fun d => c ++ d) = (clauseEval v c || cnfEval v ds) := by
  induction ds with
  | nil => simp [cnfEval]
  | cons d ds ihd =>
      simp only [List.map_cons, cnfEval, List.all_cons]
      have h1 : clauseEval v (c ++ d) = (clauseEval v c || clauseEval v d) := by
        simp [clauseEval, List.any_append]
      simp only [cnfEval] at ihd
      rw [h1, ihd]
      cases clauseEval v c <;> simp

theorem cnfEval_prodConcat (v : String → Bool) (cs ds : List (List Formula)) :
    cnfEval v (prodConcat cs ds) = (cnfEval v cs || cnfEval v ds) := by
  induction cs with
  | nil => simp [prodConcat, cnfEval]
  | cons c cs ih =>
      have hstep : prodConcat (c :: cs) ds = (ds.map fun d => c ++ d) ++ prodConcat cs ds := by
        simp [prodConcat, List.flatMap_cons]
      rw [hstep, cnfEval_append, ih, cnfEval_map_append]
      simp only [cnfEval, List.all_cons]
      cases hc : clauseEval v c <;> cases hds : List.all ds (clauseEval v) <;>
        cases hcs : List.all cs (clauseEval v) <;> rfl

theorem clausesOf_eval (f : Formula) : ∀ v : String → Bool,
    cnfEval v (clausesOf f) = Formula.eval v f := by
  induction f using Formula.rec_mem with
  | hvar n => intro v; simp [clausesOf, cnfEval, clauseEval, Formula.eval]
  | hconst b => intro v; simp [clausesOf, cnfEval, clauseEval]
  | hnot f ih => intro v; simp [clausesOf, cnfEval, clauseEval]
  | hand args ih =>
      intro v
      simp only [clausesOf, Formula.eval, Formula.evalAll_eq_all]
      induction args with
      | nil => simp [clausesAnd, cnfEval]
      | cons g gs ihl =>
          simp only [clausesAnd, cnfEval_append, List.all_cons]
          rw [ih g (by simp) v, ihl (fun a ha => ih a (by simp [ha]))]
  | hor args ih =>
      intro v
      simp only [clausesOf, Formula.eval, Formula.evalAny_eq_any]
      induction args with
      | nil => simp [clausesOr, cnfEval, clauseEval]
      | cons g gs ihl =>
          simp only [clausesOr, cnfEval_prodConcat, List.any_cons]
          rw [ih g (by simp) v, ihl (fun a ha => ih a (by simp [ha]))]
  | himp a c iha ihc => intro v; simp [clausesOf, cnfEval, clauseEval]
  | hiff a b iha ihb => intro v; simp [clausesOf, cnfEval, clauseEval]

theorem mem_dedupFirstAux (l : List Formula) :
    ∀ acc x, x ∈ dedupFirstAux acc l ↔ x ∈ acc ∨ x ∈ l := by
  induction l with
  | nil => intro acc x; simp [dedupFirstAux]
  | cons y ys ih =>
      intro acc x
      by_cases hy : y ∈ acc
      · rw [dedupFirstAux, if_pos hy, ih]
        constructor
        · rintro (h | h)
          · exact Or.inl h
          · exact Or.inr (by simp [h])
        · rintro (h | h)
          · exact Or.inl h
          · rcases List.mem_cons.mp h with h | h
            · exact Or.inl (h ▸ hy)
            · exact Or.inr h
      · rw [dedupFirstAux, if_neg hy, ih]
        simp only [List.mem_append, List.mem_cons, List.mem_singleton]
        tauto

theorem mem_dedupFirst (l : List Formula) (x : Formula) :
    x ∈ dedupFirst l ↔ x ∈ l := by
  rw [dedupFirst, mem_dedupFirstAux]
  simp

theorem simpClause_none_eval {c : List Formula} (h : simpClause c = none)
    (v : String → Bool) : clauseEval v c = true := by
  rw [simpClause] at h
  split at h
  · rename_i hcond
    rcases hcond with htrue | hpair
    · exact List.any_eq_true.mpr ⟨.const true, htrue, rfl⟩
    · obtain ⟨l, hl, hnl⟩ := List.any_eq_true.mp hpair
      cases he : Formula.eval v l with
      | true => exact List.any_eq_true.mpr ⟨l, hl, he⟩
      | false =>
          refine List.any_eq_true.mpr ⟨.not l, of_decide_eq_true hnl, ?_⟩
          simp [Formula.eval, he]
  · exact absurd h (by simp)

theorem simpClause_some_eval {c c' : List Formula} (h : simpClause c = some c')
    (v : String → Bool) : clauseEval v c' = clauseEval v c := by
  rw [simpClause] at h
  split at h
  · exact absurd h (by simp)
  · have hc' : c' = dedupFirst (c.filter fun l => decide (l ≠ .const false)) :=
      (Option.some.injEq _ _ ▸ h).symm
    rw [Bool.eq_iff_iff]
    constructor
    · intro hx
      obtain ⟨x, hxmem, hxe⟩ := List.any_eq_true.mp hx
      rw [hc', mem_dedupFirst] at hxmem
      exact List.any_eq_true.mpr ⟨x, (List.mem_filter.mp hxmem).1, hxe⟩
    · intro hx
      obtain ⟨x, hxmem, hxe⟩ := List.any_eq_true.mp hx
      have hxne : x ≠ Formula.const false := by
        intro heq
        rw [heq] at hxe
        exact absurd hxe (by simp [Formula.eval])
      refine List.any_eq_true.mpr ⟨x, ?_, hxe⟩
      rw [hc', mem_dedupFirst]
      exact List.mem_filter.mpr ⟨hxmem, by simp [hxne]⟩

theorem simpCNF_eval (cs : List (List Formula)) (v : String → Bool) :
    cnfEval v (simpCNF cs) = cnfEval v cs := by
  induction cs with
  | nil => rfl
  | cons c cs ih =>
      cases h : simpClause c with
      | none =>
          have hstep : simpCNF (c :: cs) = simpCNF cs := by
            simp [simpCNF, List.filterMap_cons, h]
          rw [hstep, ih]
          simp [cnfEval, List.all_cons, simpClause_none_eval h v]
      | some c' =>
          have hstep : simpCNF (c :: cs) = c' :: simpCNF cs := by
            simp [simpCNF, List.filterMap_cons, h]
          rw [hstep]
          simp only [cnfEval, List.all_cons]
          rw [show List.all (simpCNF cs) (clauseEval v) = cnfEval v (simpCNF cs) from rfl, ih,
            simpClause_some_eval h v]
          rfl

theorem clauseToFormula_eval (c : List Formula) (v : String → Bool) :
    Formula.eval v (clauseToFormula c) = clauseEval v c := by
  match c with
  | [] => simp [clauseToFormula, clauseEval, Formula.eval]
  | [l] => simp [clauseToFormula, clauseEval, List.any_cons]
  | l1 :: l2 :: rest =>
      simp [clauseToFormula, clauseEval, Formula.eval, Formula.evalAny_eq_any]

theorem cnfToFormula_eval (cs : List (List Formula)) (v : String → Bool) :
    Formula.eval v (cnfToFormula cs) = cnfEval v cs := by
  match cs with
  | [] => simp [cnfToFormula, cnfEval, Formula.eval]
  | [c] => simp [cnfToFormula, cnfEval, clauseToFormula_eval]
  | c1 :: c2 :: rest =>
      have hmap : ∀ ds : List (List Formula),
          Formula.evalAll v (ds.map clauseToFormula) = ds.all (clauseEval v) := by
        intro ds
        induction ds with
        | nil => rfl
        | cons d ds ihd => simp [Formula.evalAll, ihd, clauseToFormula_eval]
      simp only [cnfToFormula, List.map_cons, Formula.eval]
      rw [show Formula.evalAll v (clauseToFormula c1 :: clauseToFormula c2
            :: rest.map clauseToFormula)
          = Formula.evalAll v ((c1 :: c2 :: rest).map clauseToFormula) from rfl, hmap]
      rfl

theorem to_cnf_eval (f : Formula) (v : String → Bool) :
    Formula.eval v (to_cnf f) = Formula.eval v f := by
  rw [to_cnf, cnfToFormula_eval, simpCNF_eval, clausesOf_eval, (nnf_eval f v).1]

/-! ## Knowledge-base extension and soundness lemmas -/

theorem Formula.evalAll_append (v : String → Bool) (a b : List Formula) :
    Formula.evalAll v (a ++ b) = (Formula.evalAll v a && Formula.evalAll v b) := by
  simp [Formula.evalAll_eq_all, List.all_append]

theorem evalAll_of_mem {v : String → Bool} {kb : List Formula}
    (h : Formula.evalAll v kb = true) {x : Formula} (hx : x ∈ kb) :
    Formula.eval v x = true := by
  rw [Formula.evalAll_eq_all] at h
  exact List.all_eq_true.mp h x hx

theorem eval_kb_conj (v : String → Bool) (kb : List Formula) :
    Formula.eval v (kb_conj kb) = Formula.evalAll v kb := by
  rw [kb_conj]
  split
  · rename_i h; subst h; rfl
  · rfl

theorem eval_and_pair (v : String → Bool) (g h : Formula) :
    Formula.eval v (.and [g, h]) = (Formula.eval v g && Formula.eval v h) := by
  simp [Formula.eval, Formula.evalAll]

theorem evalAny_get_literals (v : String → Bool) (e : Formula) :
    Formula.evalAny v (get_literals e) = Formula.eval v e := by
  cases e <;> simp [get_literals, Formula.evalAny, Formula.eval]

theorem resolution_of_none {c1 c2 : Formula}
    (h : findCompl (get_literals c1) (get_literals c2) = none) (kb : List Formula) :
    resolution kb c1 c2
      = (kb, "No complementary literals found; resolution not applicable.") := by
  unfold resolution
  simp only [h]

theorem resolution_of_some {c1 c2 lit1 lit2 : Formula}
    (h : findCompl (get_literals c1) (get_literals c2) = some (lit1, lit2))
    (kb : List Formula) :
    resolution kb c1 c2
      = (if buildResolvent (get_literals c1) (get_literals c2) lit1 lit2 ∈ kb then
          (kb, "applied resolution but it's already in the KB: "
            ++ (buildResolvent (get_literals c1) (get_literals c2) lit1 lit2).str)
        else
          (kb ++ [buildResolvent (get_literals c1) (get_literals c2) lit1 lit2],
            "applied resolution and learned: "
              ++ (buildResolvent (get_literals c1) (get_literals c2) lit1 lit2).str)) := by
  unfold resolution
  simp only [h]

theorem findCompl_some_spec {l1 l2 : List Formula} {a b : Formula}
    (h : findCompl l1 l2 = some (a, b)) :
    a ∈ l1 ∧ b ∈ l2 ∧ (a = Formula.mkNot b ∨ Formula.mkNot a = b) := by
  unfold findCompl at h
  obtain ⟨x, hx, hfx⟩ := List.exists_of_findSome?_eq_some h
  obtain ⟨y, hy, hfy⟩ := List.exists_of_findSome?_eq_some hfx
  split at hfy
  · rename_i hcond
    obtain ⟨hxa, hyb⟩ := Prod.mk.injEq _ _ _ _ ▸ Option.some.injEq _ _ ▸ hfy
    subst hxa; subst hyb
    exact ⟨hx, hy, hcond⟩
  · exact absurd hfy (by simp)

theorem resolution_fst_extends (kb : List Formula) (c1 c2 : Formula) :
    ∃ ext, (resolution kb c1 c2).1 = kb ++ ext := by
  cases hfc : findCompl (get_literals c1) (get_literals c2) with
  | none => exact ⟨[], by rw [resolution_of_none hfc]; simp⟩
  | some p =>
      obtain ⟨l1, l2⟩ := p
      rw [resolution_of_some hfc]
      split
      · exact ⟨[], by simp⟩
      · exact ⟨[buildResolvent (get_literals c1) (get_literals c2) l1 l2], rfl⟩

theorem resLoop_fst_extends (f : Formula) :
    ∀ snap kb : List Formula, ∃ ext, resLoop f snap kb = kb ++ ext := by
  intro snap
  induction snap with
  | nil => intro kb; exact ⟨[], by simp [resLoop]⟩
  | cons clause rest ih =>
      intro kb
      obtain ⟨e1, he1⟩ := resolution_fst_extends kb f clause
      obtain ⟨e2, he2⟩ := resolution_fst_extends (resolution kb f clause).1 clause f
      obtain ⟨e3, he3⟩ := ih ((resolution (resolution kb f clause).1 clause f).1)
      refine ⟨e1 ++ e2 ++ e3, ?_⟩
      simp only [resLoop]
      rw [he3, he2, he1]
      simp [List.append_assoc]

theorem foldl_fst_extends {step : List Formula → Formula → List Formula}
    (hstep : ∀ kb fact, ∃ ext, step kb fact = kb ++ ext) :
    ∀ (l : List Formula) (kb : List Formula), ∃ ext, l.foldl step kb = kb ++ ext := by
  intro l
  induction l with
  | nil => intro kb; exact ⟨[], by simp⟩
  | cons fact rest ih =>
      intro kb
      obtain ⟨e1, he1⟩ := hstep kb fact
      obtain ⟨e2, he2⟩ := ih (step kb fact)
      refine ⟨e1 ++ e2, ?_⟩
      simp only [List.foldl_cons]
      rw [he2, he1, List.append_assoc]

theorem tell_fst_extends :
    ∀ (fuel : Nat) (kb : List Formula) (f : Formula), ∃ ext, (tell fuel kb f).1 = kb ++ ext := by
  intro fuel
  induction fuel with
  | zero => intro kb f; exact ⟨[], by simp [tell]⟩
  | succ fuel ih =>
      intro kb f
      rw [tell]
      split
      · exact ⟨[], by simp⟩
      · split
        · exact ⟨[], by simp⟩
        · simp only []
          have hstep : ∀ (kbAcc : List Formula) (fact : Formula),
              ∃ ext, (match fact with
                | Formula.implies a c => if f = a then (tell fuel kbAcc c).1 else kbAcc
                | _ => kbAcc) = kbAcc ++ ext := by
            intro kbAcc fact
            cases fact with
            | implies a c =>
                by_cases hfa : f = a
                · simpa [hfa] using ih kbAcc c
                · exact ⟨[], by simp [hfa]⟩
            | var n => exact ⟨[], by simp⟩
            | const b => exact ⟨[], by simp⟩
            | not g => exact ⟨[], by simp⟩
            | and args => exact ⟨[], by simp⟩
            | or args => exact ⟨[], by simp⟩
            | iff a b => exact ⟨[], by simp⟩
          have hcomp : ∀ kb2 : List Formula, (∃ e2, kb2 = (kb ++ [f]) ++ e2) →
              ∃ ext, resLoop f kb2 kb2 = kb ++ ext := by
            rintro kb2 ⟨e2, rfl⟩
            obtain ⟨e3, he3⟩ := resLoop_fst_extends f ((kb ++ [f]) ++ e2) ((kb ++ [f]) ++ e2)
            exact ⟨([f] ++ e2) ++ e3, by rw [he3]; simp [List.append_assoc]⟩
          exact hcomp _ (foldl_fst_extends hstep (kb ++ [f]) (kb ++ [f]))

theorem modus_ponens_fst_extends (fuel : Nat) (kb : List Formula) (premise impl : Formula) :
    ∃ ext, (modus_ponens fuel kb premise impl).1 = kb ++ ext := by
  unfold modus_ponens
  cases impl with
  | implies a c =>
      by_cases hpa : premise = a
      · simpa [hpa] using tell_fst_extends fuel kb c
      · exact ⟨[], by simp [hpa]⟩
  | var n => exact ⟨[], by simp⟩
  | const b => exact ⟨[], by simp⟩
  | not g => exact ⟨[], by simp⟩
  | and args => exact ⟨[], by simp⟩
  | or args => exact ⟨[], by simp⟩
  | iff a b => exact ⟨[], by simp⟩

theorem eval_and_eq_evalAll (v : String → Bool) (l : List Formula) :
    Formula.eval v (.and l) = Formula.evalAll v l := rfl

theorem tell_step_extends (fuel : Nat) (f : Formula) (kbAcc : List Formula) (fact : Formula) :
    ∃ ext, (match fact with
      | Formula.implies a c => if f = a then (tell fuel kbAcc c).1 else kbAcc
      | _ => kbAcc) = kbAcc ++ ext := by
  cases fact with
  | implies a c =>
      by_cases hfa : f = a
      · simpa [hfa] using tell_fst_extends fuel kbAcc c
      · exact ⟨[], by simp [hfa]⟩
  | var n => exact ⟨[], by simp⟩
  | const b => exact ⟨[], by simp⟩
  | not g => exact ⟨[], by simp⟩
  | and args => exact ⟨[], by simp⟩
  | or args => exact ⟨[], by simp⟩
  | iff a b => exact ⟨[], by simp⟩

theorem buildResolvent_eval {l1 l2 : List Formula} {a b : Formula} {v : String → Bool}
    (hcompl : a = Formula.mkNot b ∨ Formula.mkNot a = b)
    (h1 : Formula.evalAny v l1 = true) (h2 : Formula.evalAny v l2 = true) :
    Formula.eval v (buildResolvent l1 l2 a b) = true := by
  have hab : Formula.eval v a = !(Formula.eval v b) := by
    rcases hcompl with h | h
    · rw [h, Formula.eval_mkNot]
    · have hh := congrArg (Formula.eval v) h
      rw [Formula.eval_mkNot] at hh
      rw [← hh]
      cases Formula.eval v a <;> rfl
  have hx : ∃ x ∈ l1.filter (fun x => decide (x ≠ a)) ++ l2.filter (fun x => decide (x ≠ b)),
      Formula.eval v x = true := by
    cases hea : Formula.eval v a with
    | true =>
        have heb : Formula.eval v b = false := by
          rw [hea] at hab
          cases hb : Formula.eval v b
          · rfl
          · rw [hb] at hab; exact absurd hab (by simp)
        rw [Formula.evalAny_eq_any] at h2
        obtain ⟨x, hxm, hxe⟩ := List.any_eq_true.mp h2
        have hxb : x ≠ b := fun hh => by rw [hh, heb] at hxe; exact absurd hxe (by simp)
        exact ⟨x, List.mem_append.mpr (Or.inr (List.mem_filter.mpr ⟨hxm, by simp [hxb]⟩)), hxe⟩
    | false =>
        rw [Formula.evalAny_eq_any] at h1
        obtain ⟨x, hxm, hxe⟩ := List.any_eq_true.mp h1
        have hxa : x ≠ a := fun hh => by rw [hh, hea] at hxe; exact absurd hxe (by simp)
        exact ⟨x, List.mem_append.mpr (Or.inl (List.mem_filter.mpr ⟨hxm, by simp [hxa]⟩)), hxe⟩
  obtain ⟨x, hxm, hxe⟩ := hx
  have hxd := (mem_dedupFirst _ x).mpr hxm
  unfold buildResolvent
  simp only []
  cases hd : dedupFirst (l1.filter (fun x => decide (x ≠ a))
      ++ l2.filter (fun x => decide (x ≠ b))) with
  | nil => rw [hd] at hxd; exact absurd hxd (by simp)
  | cons y ys =>
      cases ys with
      | nil =>
          rw [hd] at hxd
          simp only [List.mem_singleton] at hxd
          subst hxd
          exact hxe
      | cons z zs =>
          rw [hd] at hxd
          simp only [Formula.eval, Formula.evalAny_eq_any]
          exact List.any_eq_true.mpr ⟨x, hxd, hxe⟩

theorem resolution_models {kb : List Formula} {c1 c2 : Formula} {v : String → Bool}
    (h1 : Formula.eval v c1 = true) (h2 : Formula.eval v c2 = true)
    (hkb : Formula.evalAll v kb = true) :
    Formula.evalAll v ((resolution kb c1 c2).1) = true := by
  cases hfc : findCompl (get_literals c1) (get_literals c2) with
  | none => rw [resolution_of_none hfc]; exact hkb
  | some p =>
      obtain ⟨a, b⟩ := p
      obtain ⟨ha, hb, hcompl⟩ := findCompl_some_spec hfc
      rw [resolution_of_some hfc]
      split
      · exact hkb
      · rw [show ((kb ++ [buildResolvent (get_literals c1) (get_literals c2) a b],
            "applied resolution and learned: "
              ++ (buildResolvent (get_literals c1) (get_literals c2) a b).str)).1
          = kb ++ [buildResolvent (get_literals c1) (get_literals c2) a b] from rfl]
        rw [Formula.evalAll_append]
        have hr := buildResolvent_eval hcompl
          (by rw [evalAny_get_literals]; exact h1)
          (by rw [evalAny_get_literals]; exact h2)
        simp [hkb, hr, Formula.evalAll]

theorem resLoop_models (f : Formula) :
    ∀ (snap kb : List Formula) (v : String → Bool), f ∈ kb → (∀ c ∈ snap, c ∈ kb) →
      Formula.evalAll v kb = true → Formula.evalAll v (resLoop f snap kb) = true := by
  intro snap
  induction snap with
  | nil => intro kb v _ _ hkb; simpa [resLoop] using hkb
  | cons clause rest ih =>
      intro kb v hf hsnap hkb
      simp only [resLoop]
      have hclause : clause ∈ kb := hsnap clause (by simp)
      have h1 : Formula.evalAll v ((resolution kb f clause).1) = true :=
        resolution_models (evalAll_of_mem hkb hf) (evalAll_of_mem hkb hclause) hkb
      obtain ⟨e1, he1⟩ := resolution_fst_extends kb f clause
      have hf1 : f ∈ (resolution kb f clause).1 := by
        rw [he1]; exact List.mem_append_left _ hf
      have hc1 : clause ∈ (resolution kb f clause).1 := by
        rw [he1]; exact List.mem_append_left _ hclause
      have h2 : Formula.evalAll v ((resolution (resolution kb f clause).1 clause f).1) = true :=
        resolution_models (evalAll_of_mem h1 hc1) (evalAll_of_mem h1 hf1) h1
      obtain ⟨e2, he2⟩ := resolution_fst_extends (resolution kb f clause).1 clause f
      apply ih
      · rw [he2]; exact List.mem_append_left _ hf1
      · intro c hc
        rw [he2]
        refine List.mem_append_left _ ?_
        rw [he1]
        exact List.mem_append_left _ (hsnap c (by simp [hc]))
      · exact h2

theorem foldl_sat {step : List Formula → Formula → List Formula}
    (hstep : ∀ kb fact, Satisfiable (.and kb) → Satisfiable (.and (step kb fact))) :
    ∀ (l kb : List Formula), Satisfiable (.and kb) → Satisfiable (.and (l.foldl step kb)) := by
  intro l
  induction l with
  | nil => intro kb h; exact h
  | cons fact rest ih =>
      intro kb h
      rw [List.foldl_cons]
      exact ih (step kb fact) (hstep kb fact h)

theorem resLoop_sat_self (f : Formula) (kb2 : List Formula) (hf : f ∈ kb2)
    (h : Satisfiable (.and kb2)) : Satisfiable (.and (resLoop f kb2 kb2)) := by
  obtain ⟨v, hv⟩ := h
  rw [eval_and_eq_evalAll] at hv
  exact ⟨v, resLoop_models f kb2 kb2 v hf (fun c hc => hc) hv⟩

theorem tell_sat :
    ∀ (fuel : Nat) (kb : List Formula) (f : Formula),
      Satisfiable (.and kb) → Satisfiable (.and (tell fuel kb f).1) := by
  intro fuel
  induction fuel with
  | zero => intro kb f h; simpa [tell] using h
  | succ fuel ih =>
      intro kb f hsat
      rw [tell]
      split
      · exact hsat
      · split
        · exact hsat
        · rename_i hns1 hns2
          have hsat2 : Satisfiable (.and [kb_conj kb, f]) := not_not.mp hns2
          obtain ⟨v, hv⟩ := hsat2
          rw [eval_and_pair, Bool.and_eq_true] at hv
          obtain ⟨hvk, hvf⟩ := hv
          rw [eval_kb_conj] at hvk
          have hkb1 : Formula.evalAll v (kb ++ [f]) = true := by
            rw [Formula.evalAll_append]
            simp [Formula.evalAll, hvk, hvf]
          have hstepSat : ∀ (kbAcc : List Formula) (fact : Formula),
              Satisfiable (.and kbAcc) → Satisfiable (.and (match fact with
                | Formula.implies a c => if f = a then (tell fuel kbAcc c).1 else kbAcc
                | _ => kbAcc)) := by
            intro kbAcc fact hs
            cases fact with
            | implies a c =>
                by_cases hfa : f = a
                · simpa [hfa] using ih kbAcc c hs
                · simpa [hfa] using hs
            | var n => exact hs
            | const b => exact hs
            | not g => exact hs
            | and args => exact hs
            | or args => exact hs
            | iff a b => exact hs
          simp only []
          apply resLoop_sat_self
          · obtain ⟨e2, he2⟩ :=
              foldl_fst_extends (tell_step_extends fuel f) (kb ++ [f]) (kb ++ [f])
            rw [he2]
            exact List.mem_append_left _ (List.mem_append_right _ (by simp))
          · exact foldl_sat hstepSat (kb ++ [f]) (kb ++ [f]) ⟨v, hkb1⟩

theorem modus_ponens_sat (fuel : Nat) (kb : List Formula) (premise impl : Formula)
    (h : Satisfiable (.and kb)) :
    Satisfiable (.and (modus_ponens fuel kb premise impl).1) := by
  unfold modus_ponens
  cases impl with
  | implies a c =>
      by_cases hpa : premise = a
      · simpa [hpa] using tell_sat fuel kb c h
      · simpa [hpa] using h
  | var n => exact h
  | const b => exact h
  | not g => exact h
  | and args => exact h
  | or args => exact h
  | iff a b => exact h

theorem runOps_sat : ∀ (ops : List KbOp) (kb : List Formula),
    Satisfiable (.and kb) → Satisfiable (.and (runOps ops kb)) := by
  intro ops
  induction ops with
  | nil => intro kb h; exact h
  | cons op rest ih =>
      intro kb h
      rw [runOps]
      cases op with
      | tellOp fuel f => exact ih _ (tell_sat fuel kb f h)
      | mpOp fuel premise impl => exact ih _ (modus_ponens_sat fuel kb premise impl h)

theorem findSome?_cons_some {α β : Type} {f : α → Option β} {a : α} {l : List α} {b : β}
    (h : f a = some b) : (a :: l).findSome? f = some b := by
  simp [List.findSome?_cons, h]

theorem findCompl_none_iff (l1 l2 : List Formula) :
    findCompl l1 l2 = none
      ↔ ∀ a ∈ l1, ∀ b ∈ l2, ¬(a = Formula.mkNot b ∨ Formula.mkNot a = b) := by
  unfold findCompl
  rw [List.findSome?_eq_none_iff]
  constructor
  · intro h a ha b hb hcond
    have h2 := h a ha
    rw [List.findSome?_eq_none_iff] at h2
    have h3 := h2 b hb
    rw [if_pos hcond] at h3
    exact absurd h3 (by simp)
  · intro h a ha
    rw [List.findSome?_eq_none_iff]
    intro b hb
    rw [if_neg (h a ha b hb)]

theorem findCompl_first {l1 l2 pre1 suf1 pre2 suf2 : List Formula} {a b : Formula}
    (h1 : l1 = pre1 ++ a :: suf1)
    (hpre1 : ∀ x ∈ pre1, ∀ y ∈ l2, ¬(x = Formula.mkNot y ∨ Formula.mkNot x = y))
    (h2 : l2 = pre2 ++ b :: suf2)
    (hpre2 : ∀ y ∈ pre2, ¬(a = Formula.mkNot y ∨ Formula.mkNot a = y))
    (hab : a = Formula.mkNot b ∨ Formula.mkNot a = b) :
    findCompl l1 l2 = some (a, b) := by
  have hinner : l2.findSome? (fun y =>
      if a = Formula.mkNot y ∨ Formula.mkNot a = y then some (a, y) else none)
      = some (a, b) := by
    rw [h2, List.findSome?_append]
    have hp : pre2.findSome? (fun y =>
        if a = Formula.mkNot y ∨ Formula.mkNot a = y then some (a, y) else none) = none := by
      rw [List.findSome?_eq_none_iff]
      intro y hy
      rw [if_neg (hpre2 y hy)]
    rw [hp, Option.none_or]
    exact findSome?_cons_some (by rw [if_pos hab])
  subst h1
  unfold findCompl
  rw [List.findSome?_append]
  have hp1 : pre1.findSome? (fun x => l2.findSome? fun y =>
      if x = Formula.mkNot y ∨ Formula.mkNot x = y then some (x, y) else none) = none := by
    rw [List.findSome?_eq_none_iff]
    intro x hx
    rw [List.findSome?_eq_none_iff]
    intro y hy
    rw [if_neg (hpre1 x hx y hy)]
  rw [hp1, Option.none_or]
  exact findSome?_cons_some hinner

theorem askResLoop_fst_extends :
    ∀ (fuel : Nat) (nq : Formula) (kb : List Formula) (i : Nat),
      ∃ ext, (askResLoop fuel nq kb i).1 = kb ++ ext := by
  intro fuel
  induction fuel with
  | zero => intro nq kb i; exact ⟨[], by simp [askResLoop]⟩
  | succ fuel ih =>
      intro nq kb i
      rw [askResLoop]
      split
      · rename_i h
        simp only []
        obtain ⟨e1, he1⟩ := resolution_fst_extends kb nq (kb.get ⟨i, h⟩)
        split
        · exact ⟨e1, he1⟩
        · obtain ⟨e2, he2⟩ := ih nq (resolution kb nq (kb.get ⟨i, h⟩)).1 (i + 1)
          exact ⟨e1 ++ e2, by rw [he2, he1, List.append_assoc]⟩
      · exact ⟨[], by simp⟩

theorem kb_false_unsat {kb : List Formula} (hmem : (Formula.const false) ∈ kb)
    (g : Formula) : ¬ Satisfiable (.and [kb_conj kb, g]) := by
  rintro ⟨v, hv⟩
  rw [eval_and_pair, Bool.and_eq_true] at hv
  have h1 := hv.1
  rw [eval_kb_conj] at h1
  have h2 := evalAll_of_mem h1 hmem
  simp [Formula.eval] at h2

/-! ## The claims -/

/-- C1: `tell(f)` returns "I already know that" and leaves the KB unchanged
when KB ∧ ¬f is unsatisfiable; otherwise returns "I do not believe that" and
leaves the KB unchanged when KB ∧ f is unsatisfiable; otherwise appends `f`
(saturation may append further consequences after it) and returns
"I've learned something new". -/
theorem tell_three_cases : ∀ (fuel : Nat) (kb : List Formula) (f : Formula),
    (¬ Satisfiable (.and [kb_conj kb, Formula.mkNot f]) →
        tell (fuel + 1) kb f = (kb, "I already know that"))
  ∧ (Satisfiable (.and [kb_conj kb, Formula.mkNot f]) →
      ¬ Satisfiable (.and [kb_conj kb, f]) →
        tell (fuel + 1) kb f = (kb, "I do not believe that"))
  ∧ (Satisfiable (.and [kb_conj kb, Formula.mkNot f]) →
      Satisfiable (.and [kb_conj kb, f]) →
        ∃ ext, tell (fuel + 1) kb f = ((kb ++ [f]) ++ ext, "I've learned something new")) := by
  intro fuel kb f
  refine ⟨?_, ?_, ?_⟩
  · intro h1
    rw [tell, if_pos h1]
  · intro h1 h2
    rw [tell, if_neg (not_not.mpr h1), if_pos h2]
  · intro h1 h2
    rw [tell, if_neg (not_not.mpr h1), if_neg (not_not.mpr h2)]
    simp only []
    obtain ⟨e2, he2⟩ := foldl_fst_extends (tell_step_extends fuel f) (kb ++ [f]) (kb ++ [f])
    rw [he2]
    obtain ⟨e3, he3⟩ := resLoop_fst_extends f ((kb ++ [f]) ++ e2) ((kb ++ [f]) ++ e2)
    rw [he3]
    exact ⟨e2 ++ e3, by rw [List.append_assoc]⟩

/-- Witness for C1: all three branches of `tell` at concrete inputs. -/
theorem tell_three_cases_witness :
    tell 1 [Formula.var "p"] (.var "p") = ([Formula.var "p"], "I already know that")
  ∧ tell 1 [Formula.var "p"] (.not (.var "p")) = ([Formula.var "p"], "I do not believe that")
  ∧ ∃ ext, tell 1 [] (.var "p")
      = (([] ++ [Formula.var "p"]) ++ ext, "I've learned something new") := by
  refine ⟨?_, ?_, ?_⟩
  · exact (tell_three_cases 0 [Formula.var "p"] (.var "p")).1 (by decide)
  · exact (tell_three_cases 0 [Formula.var "p"] (.not (.var "p"))).2.1 (by decide) (by decide)
  · exact (tell_three_cases 0 [] (.var "p")).2.2 (by decide) (by decide)

/-- C2 counterexample: from the empty knowledge base, the single operation
`resolution("p", "not p")` inserts the empty clause `Const(false)` directly
(no consistency check), leaving a knowledge base whose conjunction is
unsatisfiable. -/
theorem resolution_breaks_consistency :
    resolution [] (.var "p") (.not (.var "p"))
      = ([Formula.const false], "applied resolution and learned: False")
  ∧ ¬ Satisfiable (.and [Formula.const false]) := by
  exact ⟨by rfl, by decide⟩

/-- C2 amended: starting from the empty knowledge base, any sequence of `tell`
and `modus_ponens` operations keeps the conjunction of the knowledge base
satisfiable (`ask` and `resolution` can break it, since they append resolvents
without a consistency check). -/
theorem kb_consistent_tell_mp (ops : List KbOp) :
    Satisfiable (.and (runOps ops [])) :=
  runOps_sat ops [] ⟨fun _ => false, rfl⟩

/-- C3: the CNF conversion used by the `to_cnf` command (with simplify
enabled) is logically equivalent to its input under every truth assignment;
in particular it preserves satisfiability. -/
theorem to_cnf_equiv : ∀ f : Formula,
    (∀ v : String → Bool, Formula.eval v (to_cnf f) = Formula.eval v f)
  ∧ (Satisfiable (to_cnf f) ↔ Satisfiable f) := by
  intro f
  refine ⟨to_cnf_eval f, ?_⟩
  constructor
  · rintro ⟨v, hv⟩
    exact ⟨v, by rw [← to_cnf_eval f v]; exact hv⟩
  · rintro ⟨v, hv⟩
    exact ⟨v, by rw [to_cnf_eval f v]; exact hv⟩

/-- C4 counterexample: `ask("p")` on the knowledge base `[p | q]` reaches the
resolution lookahead, which resolves `~p` against `p | q` and appends the
resolvent `q` to the knowledge base: `ask` is not a pure reader. -/
theorem ask_mutates_kb :
    ask 5 [.or [.var "p", .var "q"]] (.var "p") (.not (.var "p"))
      = ([.or [.var "p", .var "q"], .var "q"], "I do not know")
  ∧ [Formula.or [.var "p", .var "q"], Formula.var "q"] ≠ [Formula.or [.var "p", .var "q"]] := by
  exact ⟨by rfl, by decide⟩

/-- C4 amended: `ask` can mutate the knowledge base, but only by appending
resolvents during its step-4 resolution lookahead: the knowledge base after
`ask` always extends the original (no reordering, no retraction), and when
`ask` answers at the entailment check, the contradiction check, or the
modus-ponens lookahead, the knowledge base is returned unchanged. -/
theorem ask_only_appends : ∀ (fuel : Nat) (kb : List Formula) (q nq : Formula),
    (∃ ext, (ask fuel kb q nq).1 = kb ++ ext)
  ∧ (¬ Satisfiable (.and [kb_conj kb, Formula.mkNot q]) → ask fuel kb q nq = (kb, "Yes"))
  ∧ (Satisfiable (.and [kb_conj kb, Formula.mkNot q]) →
      ¬ Satisfiable (.and [kb_conj kb, q]) → ask fuel kb q nq = (kb, "No"))
  ∧ (Satisfiable (.and [kb_conj kb, Formula.mkNot q]) →
      Satisfiable (.and [kb_conj kb, q]) → mpLookahead kb q = true →
        ask fuel kb q nq = (kb, "Yes")) := by
  intro fuel kb q nq
  refine ⟨?_, ?_, ?_, ?_⟩
  · unfold ask
    split
    · exact ⟨[], by simp⟩
    · split
      · exact ⟨[], by simp⟩
      · split
        · exact ⟨[], by simp⟩
        · simp only []
          exact askResLoop_fst_extends fuel nq kb 0
  · intro h1
    unfold ask
    rw [if_pos h1]
  · intro h1 h2
    unfold ask
    rw [if_neg (not_not.mpr h1), if_pos h2]
  · intro h1 h2 h3
    unfold ask
    rw [if_neg (not_not.mpr h1), if_neg (not_not.mpr h2), if_pos h3]

/-- Witness for C4 (amended): the extension shape at a concrete mutating call,
and the unchanged knowledge base at a concrete entailed query. -/
theorem ask_only_appends_witness :
    (∃ ext, (ask 5 [.or [.var "p", .var "q"]] (.var "p") (.not (.var "p"))).1
        = [Formula.or [.var "p", .var "q"]] ++ ext)
  ∧ ¬ Satisfiable (.and [kb_conj [Formula.var "p"], Formula.mkNot (.var "p")])
  ∧ ask 1 [Formula.var "p"] (.var "p") (.not (.var "p")) = ([Formula.var "p"], "Yes") := by
  refine ⟨?_, by decide, ?_⟩
  · exact (ask_only_appends 5 [.or [.var "p", .var "q"]] (.var "p") (.not (.var "p"))).1
  · exact (ask_only_appends 1 [Formula.var "p"] (.var "p") (.not (.var "p"))).2.1 (by decide)

/-- C5 counterexample: from the empty knowledge base, `tell("p")` then
`tell("p implies q")` both return "I've learned something new", but the
saturation step does not add `q`: forward chaining only fires when the newly
told formula equals the antecedent of an existing implication, and the newly
told formula here is the implication itself.  The final knowledge base is
exactly `[p, p => q]`. -/
theorem tell_saturation_no_q :
    tell 2 [] (.var "p") = ([Formula.var "p"], "I've learned something new")
  ∧ tell 2 [Formula.var "p"] (.implies (.var "p") (.var "q"))
      = ([Formula.var "p", Formula.implies (.var "p") (.var "q")],
         "I've learned something new")
  ∧ (Formula.var "q") ∉ [Formula.var "p", Formula.implies (.var "p") (.var "q")] := by
  exact ⟨by rfl, by rfl, by decide⟩

/-- C5 amended: both tells return "I've learned something new"; `q` is not
added to the knowledge base, but a subsequent `ask("q")` still returns "Yes"
through the full entailment check. -/
theorem tell_saturation_ask_yes :
    tell 2 [] (.var "p") = ([Formula.var "p"], "I've learned something new")
  ∧ tell 2 [Formula.var "p"] (.implies (.var "p") (.var "q"))
      = ([Formula.var "p", Formula.implies (.var "p") (.var "q")],
         "I've learned something new")
  ∧ ask 1 [Formula.var "p", Formula.implies (.var "p") (.var "q")]
        (.var "q") (.not (.var "q"))
      = ([Formula.var "p", Formula.implies (.var "p") (.var "q")], "Yes") := by
  exact ⟨by rfl, by rfl, by rfl⟩

/-- C6: `resolution` resolves exactly on the first complementary literal pair
in nested iteration order (clause1 outer, clause2 inner), builds the resolvent
as the order-preserving deduplicated union of the remaining literals (empty
union = `Const(false)`), inserts it only when not structurally present
(returning the no-complementary-pair message with the KB unchanged when no
pair exists), and on `p | r` versus `~p | s` learns `r | s`. -/
theorem resolution_spec : ∀ (kb : List Formula) (c1 c2 : Formula),
    ((∀ a ∈ get_literals c1, ∀ b ∈ get_literals c2,
        ¬(a = Formula.mkNot b ∨ Formula.mkNot a = b)) →
      resolution kb c1 c2
        = (kb, "No complementary literals found; resolution not applicable."))
  ∧ (∀ pre1 a suf1 pre2 b suf2,
      get_literals c1 = pre1 ++ a :: suf1 →
      (∀ x ∈ pre1, ∀ y ∈ get_literals c2,
        ¬(x = Formula.mkNot y ∨ Formula.mkNot x = y)) →
      get_literals c2 = pre2 ++ b :: suf2 →
      (∀ y ∈ pre2, ¬(a = Formula.mkNot y ∨ Formula.mkNot a = y)) →
      (a = Formula.mkNot b ∨ Formula.mkNot a = b) →
        (buildResolvent (get_literals c1) (get_literals c2) a b ∉ kb →
          resolution kb c1 c2
            = (kb ++ [buildResolvent (get_literals c1) (get_literals c2) a b],
               "applied resolution and learned: "
                 ++ (buildResolvent (get_literals c1) (get_literals c2) a b).str))
      ∧ (buildResolvent (get_literals c1) (get_literals c2) a b ∈ kb →
          resolution kb c1 c2
            = (kb, "applied resolution but it's already in the KB: "
                 ++ (buildResolvent (get_literals c1) (get_literals c2) a b).str)))
  ∧ ((Formula.or [.var "r", .var "s"]) ∉ kb →
      resolution kb (.or [.var "p", .var "r"]) (.or [.not (.var "p"), .var "s"])
        = (kb ++ [Formula.or [.var "r", .var "s"]],
           "applied resolution and learned: r | s")) := by
  intro kb c1 c2
  refine ⟨?_, ?_, ?_⟩
  · intro h
    exact resolution_of_none ((findCompl_none_iff _ _).mpr h) kb
  · intro pre1 a suf1 pre2 b suf2 h1 hp1 h2 hp2 hab
    have hfc := findCompl_first h1 hp1 h2 hp2 hab
    constructor
    · intro hmem
      rw [resolution_of_some hfc, if_neg hmem]
    · intro hmem
      rw [resolution_of_some hfc, if_pos hmem]
  · intro hmem
    have hfc : findCompl (get_literals (Formula.or [.var "p", .var "r"]))
        (get_literals (Formula.or [.not (.var "p"), .var "s"]))
        = some (.var "p", .not (.var "p")) := by rfl
    rw [resolution_of_some hfc]
    rw [show buildResolvent (get_literals (Formula.or [.var "p", .var "r"]))
        (get_literals (Formula.or [.not (.var "p"), .var "s"]))
        (.var "p") (.not (.var "p")) = Formula.or [.var "r", .var "s"] from rfl]
    rw [if_neg hmem]
    rfl

/-- Witness for C6: the worked example on the empty knowledge base. -/
theorem resolution_spec_witness :
    (Formula.or [.var "r", .var "s"]) ∉ ([] : List Formula)
  ∧ resolution [] (.or [.var "p", .var "r"]) (.or [.not (.var "p"), .var "s"])
      = ([Formula.or [.var "r", .var "s"]], "applied resolution and learned: r | s") := by
  refine ⟨by decide, ?_⟩
  have h := (resolution_spec [] (.or [.var "p", .var "r"])
      (.or [.not (.var "p"), .var "s"])).2.2 (by decide)
  simpa using h

/-- C7 counterexample: with knowledge base `[~(~p & q)]` (reachable by
`tell("not ( not p and q )")`) and query text `"p and q"`, the Python code
negates the query by string concatenation: `parse("not p and q")` is
`(~p) & q`, not `~(p & q)`.  The resolution lookahead then resolves
`~p & q` against `~(~p & q)` to the empty clause and the full `ask` answers
"Yes" (also corrupting the KB with `False`), while the steps-1-2-only `ask`
of src/commands.py answers "I do not know". -/
theorem ask_lookahead_diverges :
    (ask 5 [.not (.and [.not (.var "p"), .var "q"])]
        (.and [.var "p", .var "q"]) (.and [.not (.var "p"), .var "q"])).2 = "Yes"
  ∧ commands_ask [.not (.and [.not (.var "p"), .var "q"])] (.and [.var "p", .var "q"])
      = "I do not know"
  ∧ ("Yes" : String) ≠ "I do not know" := by
  exact ⟨by rfl, by rfl, by decide⟩

/-- C7 amended: the lookahead steps never change an answer the entailment and
contradiction checks already decide — whenever the steps-1-2 version returns
"Yes" or "No", the full `ask` returns the same string.  (When it returns
"I do not know", the full `ask` may instead answer "Yes", as the
counterexample shows.) -/
theorem ask_agrees_when_decided : ∀ (fuel : Nat) (kb : List Formula) (q nq : Formula),
    commands_ask kb q ≠ "I do not know" → (ask fuel kb q nq).2 = commands_ask kb q := by
  intro fuel kb q nq h
  by_cases h1 : Satisfiable (.and [kb_conj kb, Formula.mkNot q])
  · by_cases h2 : Satisfiable (.and [kb_conj kb, q])
    · exfalso
      apply h
      unfold commands_ask
      rw [if_neg (not_not.mpr h1), if_neg (not_not.mpr h2)]
    · unfold ask commands_ask
      rw [if_neg (not_not.mpr h1), if_neg (not_not.mpr h1), if_pos h2, if_pos h2]
  · unfold ask commands_ask
    rw [if_pos h1, if_pos h1]

/-- Witness for C7 (amended): on `KB = [p]`, the steps-1-2 `ask` decides "Yes"
and the full `ask` agrees. -/
theorem ask_agrees_when_decided_witness :
    commands_ask [Formula.var "p"] (.var "p") ≠ "I do not know"
  ∧ (ask 1 [Formula.var "p"] (.var "p") (.not (.var "p"))).2
      = commands_ask [Formula.var "p"] (.var "p") := by
  refine ⟨by decide, ?_⟩
  exact ask_agrees_when_decided 1 [Formula.var "p"] (.var "p") (.not (.var "p")) (by decide)

/-- C8: `modus_ponens` returns "Error: second argument must be an implication."
when the second argument is not an `Implies` formula, and an error naming the
expected antecedent when the premise is not structurally equal to it; both
error paths return normally (the function is total) and leave the knowledge
base unchanged. -/
theorem modus_ponens_errors : ∀ (fuel : Nat) (kb : List Formula) (premise impl : Formula),
    ((∀ a c, impl ≠ .implies a c) →
        modus_ponens fuel kb premise impl
          = (kb, "Error: second argument must be an implication."))
  ∧ (∀ a c, impl = .implies a c → premise ≠ a →
        modus_ponens fuel kb premise impl
          = (kb, "Error: premise " ++ premise.str
              ++ " does not match implication antecedent " ++ a.str ++ ".")) := by
  intro fuel kb premise impl
  constructor
  · intro h
    unfold modus_ponens
    cases impl with
    | implies a c => exact absurd rfl (h a c)
    | var n => rfl
    | const b => rfl
    | not g => rfl
    | and args => rfl
    | or args => rfl
    | iff a b => rfl
  · intro a c heq hne
    subst heq
    unfold modus_ponens
    simp only []
    rw [if_neg hne]

/-- Witness for C8: both error messages at concrete inputs. -/
theorem modus_ponens_errors_witness :
    modus_ponens 1 [] (.var "p") (.var "q")
      = ([], "Error: second argument must be an implication.")
  ∧ modus_ponens 1 [] (.var "p") (.implies (.var "q") (.var "r"))
      = ([], "Error: premise p does not match implication antecedent q.") := by
  constructor
  · exact (modus_ponens_errors 1 [] (.var "p") (.var "q")).1
      (fun a c h => Formula.noConfusion h)
  · exact (modus_ponens_errors 1 [] (.var "p") (.implies (.var "q") (.var "r"))).2
      (.var "q") (.var "r") rfl (by decide)

/-- C9 (code bug): `format_formula` does not parenthesize a compound formula
under negation — `Not(And(p, q))` renders as `"~p & q"`, which re-parses as
`(~p) & q`.  The function's own docstring says non-atomic arguments are
wrapped in parentheses. -/
theorem format_formula_not_and :
    format_formula (.not (.and [.var "p", .var "q"])) = "~p & q" := by rfl

/-- C10: once the constant `False` (the empty clause) is in the knowledge
base, `ask` answers "Yes" to every query and `tell` answers "I already know
that" to every formula, leaving the knowledge base unchanged. -/
theorem false_in_kb_decides : ∀ (fuel : Nat) (kb : List Formula) (q nq f : Formula),
    (Formula.const false) ∈ kb →
      ask fuel kb q nq = (kb, "Yes")
      ∧ tell (fuel + 1) kb f = (kb, "I already know that") := by
  intro fuel kb q nq f hmem
  constructor
  · unfold ask
    rw [if_pos (kb_false_unsat hmem _)]
  · rw [tell, if_pos (kb_false_unsat hmem _)]

/-- Witness for C10: the knowledge base `[False]`. -/
theorem false_in_kb_decides_witness :
    (Formula.const false) ∈ [Formula.const false]
  ∧ ask 1 [Formula.const false] (.var "p") (.not (.var "p"))
      = ([Formula.const false], "Yes")
  ∧ tell 1 [Formula.const false] (.var "p")
      = ([Formula.const false], "I already know that") := by
  refine ⟨by simp, ?_, ?_⟩
  · exact (false_in_kb_decides 1 [Formula.const false] (.var "p") (.not (.var "p"))
      (.var "p") (by simp)).1
  · exact (false_in_kb_decides 0 [Formula.const false] (.var "p") (.not (.var "p"))
      (.var "p") (by simp)).2

end LogicChatbot
